import Mathlib

/-!
Verification of the PP-MiniLM pruning driver
(`examples/model_compression/PP-MiniLM/pruning/prune.py`).

The file shallowly embeds the algorithmic core of that script:

* `argsortDesc` — `paddle.argsort(scores, descending=True)` as used on the
  per-layer head/neuron importance tensors (line 222 / 225).  The sort is
  embedded as a stable descending sort (ties broken by original index),
  which is the tie-breaking rule the design fixes for the permutation.
* `reorder_head` / `reorder_neuron_dim1` / `reorder_neuron_dim0` — the
  paddleslim `nlp_utils.reorder_head` / `reorder_neuron` utilities called
  at lines 223 and 227-230.  They are modelled at the block level: every
  weight slice that belongs to one head (its query/key/value projection
  slice and its output-projection row block) moves as one unit, and the
  neuron permutation moves column `j` of `linear1`'s weight together with
  entry `j` of its bias (dim=1) and row `j` of `linear2`'s weight (dim=0).
* `attnForward` / `ffnForward` / `layerForward` / `modelForward` — the
  full-width forward pass.  The per-head attention arithmetic, the
  activation and the residual/norm glue are opaque parameters
  (`ModelOps`): the design specifies only that head outputs are combined
  by concatenation-then-linear-projection (a sum over per-head blocks)
  and neuron outputs by summation, and the sequence axis is elided since
  every reordered operation acts pointwise over it.
* `processRounds` — the evaluate/checkpoint block of `do_train`
  (lines 407-428), including the fact that the teacher evaluation result
  at line 409 is discarded.
* `widthLoop` / `batchStep` — the per-batch width loop with gradient
  accumulation and single optimizer/scheduler step (lines 385-398).
* `runEpoch` / `runEpochs` / `trainSim` — the step-count bookkeeping and
  termination structure (lines 343-349, 376-430).
* `soft_cross_entropy` — lines 233-236, over `ℝ` with real `exp`/`log`.
* `evaluate` — lines 178-193, with the train/eval mode mutation made
  explicit and a fallible batch iteration.
* `compute_neuron_head_importance` — the paddleslim importance
  estimator invoked at line 331, modelled from the design's description
  of the algorithm (accumulate absolute per-head contributions over the
  calibration set, then average by example count).
-/

namespace Prune

/-- Ordering used by the descending argsort on an importance list `s`:
index `i` comes before index `j` when `i`'s score is strictly larger, or
the scores tie and `i` is the smaller original index (stability). -/
def keyBefore (s : List ℚ) (i j : ℕ) : Prop :=
  s.getD j 0 < s.getD i 0 ∨ (s.getD i 0 = s.getD j 0 ∧ i ≤ j)

instance (s : List ℚ) : DecidableRel (keyBefore s) := fun i j =>
  inferInstanceAs (Decidable (s.getD j 0 < s.getD i 0 ∨ (s.getD i 0 = s.getD j 0 ∧ i ≤ j)))

instance (s : List ℚ) : IsTotal ℕ (keyBefore s) where
  total i j := by
    rcases lt_trichotomy (s.getD i 0) (s.getD j 0) with h | h | h
    · exact Or.inr (Or.inl h)
    · rcases le_total i j with hij | hij
      · exact Or.inl (Or.inr ⟨h, hij⟩)
      · exact Or.inr (Or.inr ⟨h.symm, hij⟩)
    · exact Or.inl (Or.inl h)

instance (s : List ℚ) : IsTrans ℕ (keyBefore s) where
  trans a b c hab hbc := by
    rcases hab with hab | ⟨hab, hab2⟩
    · rcases hbc with hbc | ⟨hbc, _⟩
      · exact Or.inl (lt_trans hbc hab)
      · exact Or.inl (hbc ▸ hab)
    · rcases hbc with hbc | ⟨hbc, hbc2⟩
      · exact Or.inl (hab ▸ hbc)
      · exact Or.inr ⟨hab.trans hbc, le_trans hab2 hbc2⟩

/-- `paddle.argsort(s, descending=True)` (lines 222 and 225-226): the list
of original indices sorted by descending score, ties broken by original
index. -/
def argsortDesc (s : List ℚ) : List ℕ :=
  List.insertionSort (keyBefore s) (List.range s.length)

/-- `paddle.index_select`-style gather: element `j` of the result is the
`idx[j]`-th element of `l`. -/
def select {α : Type} (l : List α) (dflt : α) (idx : List ℕ) : List α :=
  idx.map (fun i => l.getD i dflt)

/-- Hidden-state vectors (the sequence axis is elided; every reordered
operation acts pointwise over it). -/
abbrev Vec (d : ℕ) := Fin d → ℚ

/-- One attention head's slice of a query/key/value projection: the
head's weight columns together with the head's bias entries. -/
abbrev HeadProj (d dh : ℕ) := (Fin d → Fin dh → ℚ) × (Fin dh → ℚ)

def zeroProj (d dh : ℕ) : HeadProj d dh := (fun _ _ => 0, fun _ => 0)

def zeroOut (dh d : ℕ) : Fin dh → Fin d → ℚ := fun _ _ => 0

def zeroVec (d : ℕ) : Vec d := fun _ => 0

/-- The `self_attn` sublayer, stored per head: for each head its q/k/v
projection slices and its row block of the output projection.  The output
projection bias is not per-head and is never permuted. -/
structure AttnBlock (d dh : ℕ) where
  qSlices : List (HeadProj d dh)
  kSlices : List (HeadProj d dh)
  vSlices : List (HeadProj d dh)
  oSlices : List (Fin dh → Fin d → ℚ)
  outBias : Vec d

/-- paddleslim `nlp_utils.reorder_head(self_attn, idx)` (line 223): the
same index permutation gathers the per-head q, k, v slices and the
per-head output-projection blocks; the output bias stays. -/
def reorder_head {d dh : ℕ} (A : AttnBlock d dh) (idx : List ℕ) : AttnBlock d dh where
  qSlices := select A.qSlices (zeroProj d dh) idx
  kSlices := select A.kSlices (zeroProj d dh) idx
  vSlices := select A.vSlices (zeroProj d dh) idx
  oSlices := select A.oSlices (zeroOut dh d) idx
  outBias := A.outBias

/-- `linear1` viewed along its output (dim=1) axis: column `j` of the
weight and entry `j` of the bias belong to neuron `j`. -/
structure LinearCols (d : ℕ) where
  cols : List (Vec d)
  bias : List ℚ

/-- `linear2` viewed along its input (dim=0) axis: row `j` of the weight
belongs to neuron `j`; the bias is on the output axis and is untouched. -/
structure LinearRows (d : ℕ) where
  rows : List (Vec d)
  bias : Vec d

/-- paddleslim `nlp_utils.reorder_neuron(linear1.fn, idx, dim=1)`
(lines 227-228): permutes weight columns and bias entries together. -/
def reorder_neuron_dim1 {d : ℕ} (l : LinearCols d) (idx : List ℕ) : LinearCols d where
  cols := select l.cols (zeroVec d) idx
  bias := select l.bias 0 idx

/-- paddleslim `nlp_utils.reorder_neuron(linear2.fn, idx, dim=0)`
(lines 229-230): permutes weight rows; dim=0 does not touch the bias. -/
def reorder_neuron_dim0 {d : ℕ} (l : LinearRows d) (idx : List ℕ) : LinearRows d where
  rows := select l.rows (zeroVec d) idx
  bias := l.bias

/-- One encoder layer: `self_attn`, `linear1`, `linear2`. -/
structure Layer (d dh : ℕ) where
  attn : AttnBlock d dh
  linear1 : LinearCols d
  linear2 : LinearRows d

/-- The opaque per-model operations the design does not specify: the
internal per-head attention arithmetic (a function of that head's own
q/k/v slices and the input), the feed-forward activation, and the
residual/normalization glue around each sublayer. -/
structure ModelOps (d dh : ℕ) where
  headComp : HeadProj d dh → HeadProj d dh → HeadProj d dh → Vec d → (Fin dh → ℚ)
  act : ℚ → ℚ
  glue1 : Vec d → Vec d → Vec d
  glue2 : Vec d → Vec d → Vec d

/-- Contribution of head `h` to output coordinate `i`: the head's output
(computed from the head's own q/k/v slices) pushed through the head's
block of the output projection.  Concatenation-then-linear-projection of
all head outputs is exactly the sum of these blocks. -/
def attnContrib {d dh : ℕ} (ops : ModelOps d dh) (A : AttnBlock d dh) (x : Vec d)
    (i : Fin d) (h : ℕ) : ℚ :=
  ∑ j : Fin dh,
    ops.headComp (A.qSlices.getD h (zeroProj d dh)) (A.kSlices.getD h (zeroProj d dh))
      (A.vSlices.getD h (zeroProj d dh)) x j * A.oSlices.getD h (zeroOut dh d) j i

/-- Full-width attention sublayer forward pass. -/
def attnForward {d dh : ℕ} (ops : ModelOps d dh) (A : AttnBlock d dh) (x : Vec d) : Vec d :=
  fun i => A.outBias i + ((List.range A.qSlices.length).map (attnContrib ops A x i)).sum

/-- Contribution of feed-forward neuron `nr` to output coordinate `i`:
the neuron's activation (from `linear1` column `nr` and bias entry `nr`)
scaled by `linear2` row `nr`.  The neuron outputs are combined by
summation. -/
def ffnContrib {d : ℕ} (l1 : LinearCols d) (l2 : LinearRows d) (act : ℚ → ℚ) (y : Vec d)
    (i : Fin d) (nr : ℕ) : ℚ :=
  act ((∑ k, y k * l1.cols.getD nr (zeroVec d) k) + l1.bias.getD nr 0) *
    l2.rows.getD nr (zeroVec d) i

/-- Full-width feed-forward sublayer forward pass. -/
def ffnForward {d dh : ℕ} (ops : ModelOps d dh) (l1 : LinearCols d) (l2 : LinearRows d)
    (y : Vec d) : Vec d :=
  fun i => l2.bias i + ((List.range l1.cols.length).map (ffnContrib l1 l2 ops.act y i)).sum

/-- Forward pass of one encoder layer. -/
def layerForward {d dh : ℕ} (ops : ModelOps d dh) (L : Layer d dh) (x : Vec d) : Vec d :=
  ops.glue2 (ops.glue1 x (attnForward ops L.attn x))
    (ffnForward ops L.linear1 L.linear2 (ops.glue1 x (attnForward ops L.attn x)))

/-- Forward pass of the encoder stack at WidthRatio = 1.0. -/
def modelForward {d dh : ℕ} (ops : ModelOps d dh) (layers : List (Layer d dh)) (x : Vec d) :
    Vec d :=
  layers.foldl (fun h L => layerForward ops L h) x

/-- One iteration of the loop body of `reorder_neuron_head`
(lines 220-230): heads sorted by this layer's head importance, neurons by
this layer's neuron importance, with the single neuron permutation applied
to `linear1` along dim=1 and to `linear2` along dim=0. -/
def reorderLayer {d dh : ℕ} (L : Layer d dh) (headImp neuronImp : List ℚ) : Layer d dh where
  attn := reorder_head L.attn (argsortDesc headImp)
  linear1 := reorder_neuron_dim1 L.linear1 (argsortDesc neuronImp)
  linear2 := reorder_neuron_dim0 L.linear2 (argsortDesc neuronImp)

/-- `reorder_neuron_head(model, head_importance, neuron_importance)`
(lines 218-230): iterates `enumerate(neuron_importance)`, reordering layer
`i` with `head_importance[i]` and `neuron_importance[i]`. -/
def reorder_neuron_head {d dh : ℕ} :
    List (Layer d dh) → List (List ℚ) → List (List ℚ) → List (Layer d dh)
  | [], _, _ => []
  | L :: Ls, _, [] => L :: Ls
  | L :: Ls, hImps, nImp :: nImps =>
      reorderLayer L (hImps.headD []) nImp :: reorder_neuron_head Ls hImps.tail nImps

/-- Well-formedness of the importance scores for a model: each processed
layer's head-importance list has one score per head and its
neuron-importance list one score per neuron (mirrors the tensor-shape
requirements of the reordering utilities). -/
def scoresOk {d dh : ℕ} : List (Layer d dh) → List (List ℚ) → List (List ℚ) → Bool
  | [], _, _ => true
  | _ :: _, _, [] => true
  | L :: Ls, hImps, nImp :: nImps =>
      ((hImps.headD []).length == L.attn.qSlices.length) &&
        (nImp.length == L.linear1.cols.length) && scoresOk Ls hImps.tail nImps

/-- One evaluation round of the checkpoint block (lines 407-428): first
the teacher is evaluated (line 409, its result is used only for printing),
then every configured width's student result in list order. -/
structure EvalRound where
  teacher : ℚ
  students : List ℚ

/-- The student part of an evaluation round (lines 411-428): for each
width's result `res`, a checkpoint is written exactly when
`best_res < res`, and `best_res` is then updated to `res`.  Returns the
final best and, per result, whether a checkpoint was written. -/
def processStudents : ℚ → List ℚ → ℚ × List Bool
  | best, [] => (best, [])
  | best, res :: rest =>
      let saved : Bool := if best < res then true else false
      let newBest := if best < res then res else best
      let out := processStudents newBest rest
      (out.1, saved :: out.2)

/-- One full evaluation round: the teacher result (line 409) is discarded
— it is never compared with `best_res` and never triggers a save — then
the students are processed.  The `Bool` is the teacher save flag, the list
the per-width student save flags. -/
def processRound (best : ℚ) (rd : EvalRound) : ℚ × (Bool × List Bool) :=
  let out := processStudents best rd.students
  (out.1, (false, out.2))

/-- The sequence of evaluation rounds over a whole run, threading
`best_res`. -/
def processRounds : ℚ → List EvalRound → ℚ × List (Bool × List Bool)
  | best, [] => (best, [])
  | best, rd :: rds =>
      let out := processRound best rd
      let rest := processRounds out.1 rds
      (rest.1, out.2 :: rest.2)

/-- Line 375: `best_res = 0.0`. -/
def best_res_init : ℚ := 0

/-- The trainer state touched by one batch of the width loop: the shared
parameter gradient buffer and the optimizer / lr-scheduler step counters.
-/
structure TrainState (G : Type) where
  grad : G
  optSteps : ℕ
  lrSteps : ℕ

/-- Lines 385-395: for each width ratio in list order, compute that
width's loss and call `loss.backward()`, which adds the width's gradient
`g w` into the shared buffer; nothing zeroes the buffer between widths. -/
def widthLoop {G : Type} [AddCommMonoid G] (g : ℚ → G) (widths : List ℚ)
    (s : TrainState G) : TrainState G :=
  widths.foldl (fun st w => { st with grad := st.grad + g w }) s

/-- Lines 385-398: the width loop followed by exactly one
`optimizer.step()`, one `lr_scheduler.step()`, and one
`optimizer.clear_grad()`. -/
def batchStep {G : Type} [AddCommMonoid G] (g : ℚ → G) (widths : List ℚ)
    (s : TrainState G) : TrainState G :=
  let s1 := widthLoop g widths s
  let s2 := { s1 with optSteps := s1.optSteps + 1 }
  let s3 := { s2 with lrSteps := s2.lrSteps + 1 }
  { s3 with grad := (0 : G) }

/-- `math.ceil(a / b)` on naturals (line 345). -/
def ceilDiv (a b : ℕ) : ℕ := (a + b - 1) / b

/-- Lines 343-348: `num_training_steps` is `max_steps` when positive,
otherwise batches-per-epoch times the configured epoch count. -/
def numTrainingSteps (maxSteps : ℤ) (numBatches epochs : ℕ) : ℕ :=
  if 0 < maxSteps then maxSteps.toNat else numBatches * epochs

/-- Lines 343-349: when `max_steps` is positive the epoch count is
recomputed as `ceil(max_steps / batches-per-epoch)`. -/
def numTrainEpochs (maxSteps : ℤ) (numBatches epochs : ℕ) : ℕ :=
  if 0 < maxSteps then ceilDiv maxSteps.toNat numBatches else epochs

/-- The inner batch loop of one epoch (lines 381-430): `global_step` is
incremented at the top of the body (line 382) and the loop returns as
soon as `global_step >= num_training_steps` (lines 429-430). -/
def runEpoch : ℕ → ℕ → ℕ → ℕ
  | 0, gs, _ => gs
  | b + 1, gs, target =>
      let gs2 := gs + 1
      if target ≤ gs2 then gs2 else runEpoch b gs2 target

/-- The epoch loop (line 376): runs epochs until the inner loop has
returned (step target reached) or the epochs are exhausted. -/
def runEpochs : ℕ → ℕ → ℕ → ℕ → ℕ
  | 0, gs, _, _ => gs
  | e + 1, gs, numBatches, target =>
      let gs2 := runEpoch numBatches gs target
      if target ≤ gs2 then gs2 else runEpochs e gs2 numBatches target

/-- Final value of `global_step` for a whole training run, i.e. the
number of batch iterations executed. -/
def trainSim (maxSteps : ℤ) (numBatches epochs : ℕ) : ℕ :=
  runEpochs (numTrainEpochs maxSteps numBatches epochs) 0 numBatches
    (numTrainingSteps maxSteps numBatches epochs)

/-- `F.softmax(z, axis=-1)` over one example's class logits. -/
noncomputable def softmax {C : ℕ} (z : Fin C → ℝ) (c : Fin C) : ℝ :=
  Real.exp (z c) / ∑ j, Real.exp (z j)

/-- `F.log_softmax(z, axis=-1)` as computed numerically:
`z c - log (sum of exp)`. -/
noncomputable def log_softmax {C : ℕ} (z : Fin C → ℝ) (c : Fin C) : ℝ :=
  z c - Real.log (∑ j, Real.exp (z j))

/-- `soft_cross_entropy(inp, target)` (lines 233-236):
`-1 * mean over examples (sum over classes (log_softmax(inp) * softmax(target)))`. -/
noncomputable def soft_cross_entropy {n C : ℕ} (inp target : Fin n → Fin C → ℝ) : ℝ :=
  -1 * ((∑ i, ∑ c, log_softmax (inp i) c * softmax (target i) c) / n)

/-- The soft-label loss as the design words it: the negative mean over
examples of the expectation, under the teacher's softened distribution
`softmax(target)`, of the logarithm of the student's softmax
probabilities — a cross-entropy against a soft target. -/
noncomputable def softLabelLossSpec {n C : ℕ} (inp target : Fin n → Fin C → ℝ) : ℝ :=
  -1 * ((∑ i, ∑ c, softmax (target i) c * Real.log (softmax (inp i) c)) / n)

/-- Line 394: `loss = rep_loss + args.lambda_logit * logit_loss`. -/
noncomputable def totalLoss (repLoss lambda_logit logitLoss : ℝ) : ℝ :=
  repLoss + lambda_logit * logitLoss

/-- The training-vs-inference toggle of a paddle layer
(`model.train()` / `model.eval()`). -/
inductive NetMode
  | train
  | eval
deriving DecidableEq

/-- The batch iteration of `evaluate` (lines 182-188): each batch either
contributes to the metric state or raises (modelled as `none`), in which
case the exception propagates out of the loop. -/
def evalLoop {M B : Type} (upd : M → B → M) : M → List (Option B) → Option M
  | m, [] => some m
  | m, ob :: rest =>
      match ob with
      | none => none
      | some b => evalLoop upd (upd m b) rest

/-- `evaluate(model, metric, data_loader, ...)` (lines 178-193) acting on
the model's mode: `model.eval()` is called first (line 180), the metric is
reset and folded over the batches, and `model.train()` runs only at the
end of the normal path (line 192).  `mode0` is the model's mode before the
call; the returned mode is the model's mode after the call. -/
def evaluate {M B : Type} (mode0 : NetMode) (batches : List (Option B)) (reset : M)
    (upd : M → B → M) (accum : M → ℚ) : NetMode × Option ℚ :=
  match evalLoop upd reset batches with
  | none => (NetMode.eval, none)
  | some m => (NetMode.train, some (accum m))

/-- Modelled from the spec: `nlp_utils.compute_neuron_head_importance`
lives in paddleslim and is only called here (line 331).  Per the design
(§4.1) it accumulates the absolute per-head (per-neuron) contribution
`|gradient × activation|` over every calibration batch and averages by
example count; it has no failure path and performs no emptiness check.
The `Except` result type makes the presence or absence of a signalled
configuration error statable. -/
def compute_neuron_head_importance {B : Type} (H : ℕ) (batches : List B)
    (contrib : B → Fin H → ℚ) : Except Unit (Fin H → ℚ) :=
  Except.ok (fun h => ((batches.map (fun b => |contrib b h|)).sum) / (batches.length : ℚ))

/-- A concrete head slice for the demonstration model, with query weight
`w`. -/
def demoHeadProj (w : ℚ) : HeadProj 1 1 := (fun _ _ => w, fun _ => 0)

/-- A two-head attention block whose heads are distinguishable by their
query weights. -/
def demoAttn : AttnBlock 1 1 where
  qSlices := [demoHeadProj 1, demoHeadProj 2]
  kSlices := [demoHeadProj 1, demoHeadProj 2]
  vSlices := [demoHeadProj 1, demoHeadProj 2]
  oSlices := [zeroOut 1 1, zeroOut 1 1]
  outBias := zeroVec 1

/-- A concrete one-layer model with two heads and one neuron. -/
def demoLayer : Layer 1 1 where
  attn := demoAttn
  linear1 := { cols := [zeroVec 1], bias := [0] }
  linear2 := { rows := [zeroVec 1], bias := zeroVec 1 }

def demoModel : List (Layer 1 1) := [demoLayer]

/-- Head-importance scores `[1, 2]` for the demo layer: the descending
argsort is `[1, 0]`, i.e. the two heads swap. -/
def demoHeadImp : List (List ℚ) := [[1, 2]]

def demoNeuronImp : List (List ℚ) := [[1]]

/-- Reads the query weight of the head currently in position 0 of the
demo model's single layer. -/
def qWeightAt (layers : List (Layer 1 1)) : ℚ :=
  ((layers.headD demoLayer).attn.qSlices.getD 0 (zeroProj 1 1)).1 0 0

/-- Concrete model operations for witnesses. -/
def demoOps : ModelOps 1 1 where
  headComp := fun q _ _ x _ => q.1 0 0 * x 0
  act := fun r => r * r
  glue1 := fun x a => fun i => x i + a i
  glue2 := fun y f => fun i => y i + f i

def demoX : Vec 1 := fun _ => 1

/-- The evaluation results of the monotone-checkpointing scenario:
round one `(teacher 0.80, students [0.75, 0.78])`, round two
`(teacher 0.80 again, students [0.82, 0.77])`. -/
def demoRounds : List EvalRound :=
  [⟨80/100, [75/100, 78/100]⟩, ⟨80/100, [82/100, 77/100]⟩]

/-! ## Theorems -/

lemma argsortDesc_perm (s : List ℚ) : (argsortDesc s).Perm (List.range s.length) :=
  List.perm_insertionSort (keyBefore s) (List.range s.length)

lemma argsortDesc_sorted (s : List ℚ) : (argsortDesc s).Pairwise (keyBefore s) :=
  List.sorted_insertionSort (keyBefore s) (List.range s.length)

lemma pairwise_and_of {l : List ℕ} {R S : ℕ → ℕ → Prop} (h1 : l.Pairwise R)
    (h2 : l.Pairwise S) : l.Pairwise (fun a b => R a b ∧ S a b) := by
  induction l with
  | nil => exact List.Pairwise.nil
  | cons a t ih =>
      rw [List.pairwise_cons] at h1 h2 ⊢
      exact ⟨fun b hb => ⟨h1.1 b hb, h2.1 b hb⟩, ih h1.2 h2.2⟩

lemma argsortDesc_nodup (s : List ℚ) : (argsortDesc s).Nodup :=
  (argsortDesc_perm s).symm.nodup (List.nodup_range s.length)

lemma argsortDesc_pairwise_strict (s : List ℚ) :
    (argsortDesc s).Pairwise
      (fun i j => s.getD j 0 < s.getD i 0 ∨ (s.getD i 0 = s.getD j 0 ∧ i < j)) := by
  have h2 : (argsortDesc s).Pairwise (fun i j => i ≠ j) := argsortDesc_nodup s
  refine (pairwise_and_of (argsortDesc_sorted s) h2).imp ?_
  rintro a b ⟨hk, hne⟩
  rcases hk with hk | ⟨heq, hle⟩
  · exact Or.inl hk
  · exact Or.inr ⟨heq, lt_of_le_of_ne hle hne⟩

lemma select_length {α : Type} (l : List α) (dflt : α) (idx : List ℕ) :
    (select l dflt idx).length = idx.length :=
  List.length_map idx _

lemma select_getD {α : Type} (l : List α) (dflt : α) (idx : List ℕ) :
    ∀ j : ℕ, j < idx.length → (select l dflt idx).getD j dflt = l.getD (idx.getD j 0) dflt := by
  induction idx with
  | nil => exact fun j hj => absurd hj (Nat.not_lt_zero j)
  | cons i is ih =>
      intro j hj
      cases j with
      | zero => simp [select]
      | succ j2 =>
          have : select l dflt (i :: is) = l.getD i dflt :: select l dflt is := rfl
          rw [this, List.getD_cons_succ, List.getD_cons_succ]
          exact ih j2 (Nat.lt_of_succ_lt_succ hj)

lemma map_range_getD {β : Type} (idx : List ℕ) (f : ℕ → β) :
    (List.range idx.length).map (fun j => f (idx.getD j 0)) = idx.map f := by
  induction idx with
  | nil => rfl
  | cons i is ih =>
      rw [List.length_cons, List.range_succ_eq_map, List.map_cons, List.map_map,
        List.getD_cons_zero, List.map_cons]
      congr 1

lemma sum_select_eq {M : Type} [AddCommMonoid M] (idx : List ℕ) (n : ℕ)
    (hperm : idx.Perm (List.range n)) (f : ℕ → M) :
    ((List.range idx.length).map (fun j => f (idx.getD j 0))).sum =
      ((List.range n).map f).sum := by
  rw [map_range_getD]
  exact (hperm.map f).sum_eq

lemma attnContrib_reorder {d dh : ℕ} (ops : ModelOps d dh) (A : AttnBlock d dh) (idx : List ℕ)
    (x : Vec d) (i : Fin d) (h : ℕ) (hh : h < idx.length) :
    attnContrib ops (reorder_head A idx) x i h = attnContrib ops A x i (idx.getD h 0) := by
  unfold attnContrib reorder_head
  rw [select_getD A.qSlices _ idx h hh, select_getD A.kSlices _ idx h hh,
    select_getD A.vSlices _ idx h hh, select_getD A.oSlices _ idx h hh]

lemma attnForward_reorder {d dh : ℕ} (ops : ModelOps d dh) (A : AttnBlock d dh) (idx : List ℕ)
    (hperm : idx.Perm (List.range A.qSlices.length)) (x : Vec d) :
    attnForward ops (reorder_head A idx) x = attnForward ops A x := by
  funext i
  unfold attnForward
  have hbias : (reorder_head A idx).outBias = A.outBias := rfl
  have hlen : (reorder_head A idx).qSlices.length = idx.length := select_length _ _ _
  rw [hbias, hlen]
  congr 1
  calc ((List.range idx.length).map (attnContrib ops (reorder_head A idx) x i)).sum
      = ((List.range idx.length).map (fun h => attnContrib ops A x i (idx.getD h 0))).sum :=
        congrArg List.sum (List.map_congr_left
          (fun h hh => attnContrib_reorder ops A idx x i h (List.mem_range.mp hh)))
    _ = ((List.range A.qSlices.length).map (attnContrib ops A x i)).sum :=
        sum_select_eq idx _ hperm (attnContrib ops A x i)

lemma ffnContrib_reorder {d : ℕ} (l1 : LinearCols d) (l2 : LinearRows d) (act : ℚ → ℚ)
    (idx : List ℕ) (y : Vec d) (i : Fin d) (nr : ℕ) (hh : nr < idx.length) :
    ffnContrib (reorder_neuron_dim1 l1 idx) (reorder_neuron_dim0 l2 idx) act y i nr =
      ffnContrib l1 l2 act y i (idx.getD nr 0) := by
  unfold ffnContrib reorder_neuron_dim1 reorder_neuron_dim0
  rw [select_getD l1.cols _ idx nr hh, select_getD l1.bias _ idx nr hh,
    select_getD l2.rows _ idx nr hh]

lemma ffnForward_reorder {d dh : ℕ} (ops : ModelOps d dh) (l1 : LinearCols d)
    (l2 : LinearRows d) (idx : List ℕ) (hperm : idx.Perm (List.range l1.cols.length))
    (y : Vec d) :
    ffnForward ops (reorder_neuron_dim1 l1 idx) (reorder_neuron_dim0 l2 idx) y =
      ffnForward ops l1 l2 y := by
  funext i
  unfold ffnForward
  have hbias : (reorder_neuron_dim0 l2 idx).bias = l2.bias := rfl
  have hlen : (reorder_neuron_dim1 l1 idx).cols.length = idx.length := select_length _ _ _
  rw [hbias, hlen]
  congr 1
  calc ((List.range idx.length).map
        (ffnContrib (reorder_neuron_dim1 l1 idx) (reorder_neuron_dim0 l2 idx) ops.act y i)).sum
      = ((List.range idx.length).map (fun nr => ffnContrib l1 l2 ops.act y i (idx.getD nr 0))).sum :=
        congrArg List.sum (List.map_congr_left
          (fun nr hnr => ffnContrib_reorder l1 l2 ops.act idx y i nr (List.mem_range.mp hnr)))
    _ = ((List.range l1.cols.length).map (ffnContrib l1 l2 ops.act y i)).sum :=
        sum_select_eq idx _ hperm (ffnContrib l1 l2 ops.act y i)

lemma layerForward_reorder {d dh : ℕ} (ops : ModelOps d dh) (L : Layer d dh) (hs ns : List ℚ)
    (hh : hs.length = L.attn.qSlices.length) (hn : ns.length = L.linear1.cols.length)
    (x : Vec d) : layerForward ops (reorderLayer L hs ns) x = layerForward ops L x := by
  have hpermH : (argsortDesc hs).Perm (List.range L.attn.qSlices.length) := by
    rw [← hh]
    exact argsortDesc_perm hs
  have hpermN : (argsortDesc ns).Perm (List.range L.linear1.cols.length) := by
    rw [← hn]
    exact argsortDesc_perm ns
  unfold layerForward reorderLayer
  rw [attnForward_reorder ops L.attn _ hpermH x,
    ffnForward_reorder ops L.linear1 L.linear2 _ hpermN _]

lemma modelForward_cons {d dh : ℕ} (ops : ModelOps d dh) (L : Layer d dh)
    (Ls : List (Layer d dh)) (x : Vec d) :
    modelForward ops (L :: Ls) x = modelForward ops Ls (layerForward ops L x) := rfl

/-- C1: applying `reorder_neuron_head` and then running the full-width
forward pass yields, for every input, exactly the output of the forward
pass of the unmodified model (exact equality over `ℚ`, which is the
floating-point claim up to summation order): the head permutation moves
each head's q/k/v slices and output-projection block together, and the
neuron permutation moves `linear1` dim=1 columns/bias and `linear2`
dim=0 rows together, so the block sums that combine them are unchanged.
Holds for every model, every well-shaped pair of importance score lists,
every per-head attention arithmetic, activation and residual glue. -/
theorem reorder_neuron_head_preserves_forward {d dh : ℕ} (ops : ModelOps d dh)
    (layers : List (Layer d dh)) (hImps nImps : List (List ℚ)) (x : Vec d)
    (h : scoresOk layers hImps nImps = true) :
    modelForward ops (reorder_neuron_head layers hImps nImps) x = modelForward ops layers x := by
  induction nImps generalizing layers hImps x with
  | nil =>
      cases layers with
      | nil => rfl
      | cons L Ls => rfl
  | cons nImp nImps ih =>
      cases layers with
      | nil => rfl
      | cons L Ls =>
          simp only [scoresOk, Bool.and_eq_true, beq_iff_eq] at h
          obtain ⟨⟨hh, hn⟩, hrest⟩ := h
          rw [show reorder_neuron_head (L :: Ls) hImps (nImp :: nImps) =
              reorderLayer L (hImps.headD []) nImp ::
                reorder_neuron_head Ls hImps.tail nImps from rfl,
            modelForward_cons, modelForward_cons,
            layerForward_reorder ops L _ _ hh hn x]
          exact ih Ls hImps.tail (layerForward ops L x) hrest

/-- C1 witness: the preservation theorem applied to the concrete
one-layer demo model with head scores `[1, 2]` and neuron scores `[1]`.
-/
theorem reorder_preserves_forward_witness :
    scoresOk demoModel demoHeadImp demoNeuronImp = true ∧
      modelForward demoOps (reorder_neuron_head demoModel demoHeadImp demoNeuronImp) demoX =
        modelForward demoOps demoModel demoX :=
  ⟨by decide,
    reorder_neuron_head_preserves_forward demoOps demoModel demoHeadImp demoNeuronImp demoX
      (by decide)⟩

/-- C4: `argsortDesc` produces, for every score list, a permutation of
the index range that is sorted by strictly descending score with ties
broken by ascending original index; on the concrete scores
`[0.1, 0.9, 0.3, 0.7]` it yields `[1, 3, 2, 0]`; and `reorderLayer`
derives the head permutation from the head scores and applies the single
neuron permutation jointly to `linear1` (dim=1) and `linear2` (dim=0). -/
theorem reorder_permutation_spec :
    (∀ s : List ℚ,
        (argsortDesc s).Perm (List.range s.length) ∧
          (argsortDesc s).Pairwise
            (fun i j => s.getD j 0 < s.getD i 0 ∨ (s.getD i 0 = s.getD j 0 ∧ i < j))) ∧
      argsortDesc [1/10, 9/10, 3/10, 7/10] = [1, 3, 2, 0] ∧
        ∀ (d dh : ℕ) (L : Layer d dh) (hs ns : List ℚ),
          (reorderLayer L hs ns).attn = reorder_head L.attn (argsortDesc hs) ∧
            (reorderLayer L hs ns).linear1 = reorder_neuron_dim1 L.linear1 (argsortDesc ns) ∧
              (reorderLayer L hs ns).linear2 = reorder_neuron_dim0 L.linear2 (argsortDesc ns) :=
  ⟨fun s => ⟨argsortDesc_perm s, argsortDesc_pairwise_strict s⟩,
    by
      norm_num [argsortDesc, keyBefore, List.insertionSort, List.orderedInsert, List.range,
        List.range.loop],
    fun d dh L hs ns => ⟨rfl, rfl, rfl⟩⟩

lemma processRounds_teacher_flags :
    ∀ (best : ℚ) (rounds : List EvalRound),
      (processRounds best rounds).2.map Prod.fst = List.replicate rounds.length false := by
  intro best rounds
  induction rounds generalizing best with
  | nil => rfl
  | cons rd rds ih =>
      simp only [processRounds, processRound, List.map_cons, List.length_cons,
        List.replicate_succ]
      exact congrArg (List.cons false) (ih _)

/-- C2 counterexample: on the claimed evaluation sequence
(round one: teacher 0.80, students 0.75 and 0.78; round two: teacher,
students 0.82 and 0.77) the code writes checkpoints after 0.75, 0.78 and
0.82 and writes none after the teacher's 0.80 — not the claimed pattern
of exactly one checkpoint after 0.80 and one after 0.82. -/
theorem checkpoint_teacher_counterexample :
    (processRounds best_res_init demoRounds).2 =
        [(false, [true, true]), (false, [true, false])] ∧
      (processRounds best_res_init demoRounds).2 ≠
        [(true, [false, false]), (false, [true, false])] := by
  have h1 : (processRounds best_res_init demoRounds).2 =
      [(false, [true, true]), (false, [true, false])] := by
    norm_num [processRounds, processRound, processStudents, best_res_init, demoRounds]
  refine ⟨h1, ?_⟩
  rw [h1]
  decide

/-- C2 amended: `best_res` starts at 0.0 and is a single global maximum
over student evaluations only — the teacher result of every round is
discarded and never triggers persistence.  On the concrete sequence,
whatever the round-two teacher result is, checkpoints are written after
0.75, 0.78 and 0.82 (not after 0.77 or any teacher result) and
`best_res` ends at 0.82. -/
theorem checkpoint_selection_amended :
    (∀ tRes : ℚ,
        (processRounds best_res_init
              [⟨80/100, [75/100, 78/100]⟩, ⟨tRes, [82/100, 77/100]⟩]).1 = 82/100 ∧
          (processRounds best_res_init
                [⟨80/100, [75/100, 78/100]⟩, ⟨tRes, [82/100, 77/100]⟩]).2 =
            [(false, [true, true]), (false, [true, false])]) ∧
      ∀ (best : ℚ) (rounds : List EvalRound),
        (processRounds best rounds).2.map Prod.fst = List.replicate rounds.length false := by
  refine ⟨fun tRes => ⟨?_, ?_⟩, processRounds_teacher_flags⟩
  · norm_num [processRounds, processRound, processStudents, best_res_init]
  · norm_num [processRounds, processRound, processStudents, best_res_init]

lemma processStudents_nonpos :
    ∀ (rs : List ℚ) (best : ℚ), 0 ≤ best → (∀ r ∈ rs, r ≤ 0) →
      processStudents best rs = (best, List.replicate rs.length false) := by
  intro rs
  induction rs with
  | nil => intro best hb h; rfl
  | cons r rest ih =>
      intro best hb h
      have hr : r ≤ 0 := h r (List.mem_cons_self r rest)
      have hnlt : ¬ best < r := not_lt.mpr (hr.trans hb)
      simp only [processStudents, if_neg hnlt]
      rw [ih best hb (fun x hx => h x (List.mem_cons_of_mem r hx))]
      simp [List.replicate_succ]

lemma processRounds_nonpos :
    ∀ (rounds : List EvalRound) (best : ℚ), 0 ≤ best →
      (∀ rd ∈ rounds, ∀ r ∈ rd.students, r ≤ 0) →
      processRounds best rounds =
        (best, rounds.map (fun rd => (false, List.replicate rd.students.length false))) := by
  intro rounds
  induction rounds with
  | nil => intro best hb h; rfl
  | cons rd rds ih =>
      intro best hb h
      have h1 := h rd (List.mem_cons_self rd rds)
      simp only [processRounds, processRound]
      rw [processStudents_nonpos rd.students best hb h1,
        ih best hb (fun x hx => h x (List.mem_cons_of_mem rd hx))]
      simp

/-- C10: `best_res` is initialized to 0.0 (not a true sentinel minimum)
and a checkpoint is written only when a student result strictly exceeds
the current best, so on any run in which every student evaluation result
is ≤ 0 no checkpoint is ever written and `best_res` never moves. -/
theorem no_checkpoint_when_results_nonpositive (rounds : List EvalRound)
    (h : ∀ rd ∈ rounds, ∀ r ∈ rd.students, r ≤ 0) :
    best_res_init = 0 ∧
      (processRounds best_res_init rounds).1 = best_res_init ∧
        ∀ p ∈ (processRounds best_res_init rounds).2,
          p.1 = false ∧ ∀ b ∈ p.2, b = false := by
  have key := processRounds_nonpos rounds best_res_init le_rfl h
  refine ⟨rfl, by rw [key], ?_⟩
  rw [key]
  intro p hp
  obtain ⟨rd, hrd, rfl⟩ := List.mem_map.mp hp
  exact ⟨rfl, fun b hb => List.eq_of_mem_replicate hb⟩

/-- C10 witness: a round whose student results are 0 and -1 triggers no
checkpoint and leaves the best unchanged. -/
theorem no_checkpoint_witness :
    (∀ rd ∈ ([⟨1, [0, -1]⟩] : List EvalRound), ∀ r ∈ rd.students, r ≤ 0) ∧
      (processRounds best_res_init [⟨1, [0, -1]⟩]).1 = best_res_init :=
  ⟨by decide, (no_checkpoint_when_results_nonpositive _ (by decide)).2.1⟩

lemma widthLoop_fields {G : Type} [AddCommMonoid G] (g : ℚ → G) :
    ∀ (ws : List ℚ) (s : TrainState G),
      (widthLoop g ws s).grad = s.grad + (ws.map g).sum ∧
        (widthLoop g ws s).optSteps = s.optSteps ∧
          (widthLoop g ws s).lrSteps = s.lrSteps := by
  intro ws
  induction ws with
  | nil => exact fun s => ⟨(add_zero _).symm, rfl, rfl⟩
  | cons w ws ih =>
      intro s
      have h := ih { s with grad := s.grad + g w }
      have hstep : widthLoop g (w :: ws) s = widthLoop g ws { s with grad := s.grad + g w } :=
        rfl
      refine ⟨?_, ?_, ?_⟩
      · rw [hstep, h.1, List.map_cons, List.sum_cons, add_assoc]
      · rw [hstep, h.2.1]
      · rw [hstep, h.2.2]

/-- C3: within one batch, `loss.backward()` runs once per width ratio in
list order with no zeroing in between, so after the width loop the shared
gradient equals the sum (not the average) of the per-width gradients;
then the batch takes exactly one optimizer step, one lr-scheduler step,
and clears the gradient. -/
theorem gradient_accumulation {G : Type} [AddCommMonoid G] (g : ℚ → G) (widths : List ℚ)
    (s : TrainState G) (h : s.grad = 0) :
    (widthLoop g widths s).grad = (widths.map g).sum ∧
      (batchStep g widths s).optSteps = s.optSteps + 1 ∧
        (batchStep g widths s).lrSteps = s.lrSteps + 1 ∧
          (batchStep g widths s).grad = 0 := by
  have hf := widthLoop_fields g widths s
  refine ⟨by rw [hf.1, h, zero_add], ?_, ?_, rfl⟩
  · rw [show (batchStep g widths s).optSteps = (widthLoop g widths s).optSteps + 1 from rfl,
      hf.2.1]
  · rw [show (batchStep g widths s).lrSteps = (widthLoop g widths s).lrSteps + 1 from rfl,
      hf.2.2]

/-- C3 witness: the width list `[1.0, 0.5]` starting from a cleared
gradient buffer accumulates the sum of the two per-width gradients. -/
theorem gradient_accumulation_witness :
    (TrainState.mk (0 : ℚ) 0 0).grad = 0 ∧
      (widthLoop (fun w => w) [1, 1/2] (TrainState.mk (0 : ℚ) 0 0)).grad =
        (([1, 1/2] : List ℚ).map (fun w => w)).sum :=
  ⟨rfl, (gradient_accumulation (fun w => w) [1, 1/2] (TrainState.mk 0 0 0) rfl).1⟩

lemma runEpoch_eq :
    ∀ (b gs target : ℕ), gs < target → runEpoch b gs target = min target (gs + b) := by
  intro b
  induction b with
  | zero =>
      intro gs target h
      simp only [runEpoch, Nat.add_zero]
      omega
  | succ b ih =>
      intro gs target h
      by_cases hc : target ≤ gs + 1
      · simp only [runEpoch, if_pos hc]
        omega
      · simp only [runEpoch, if_neg hc]
        rw [ih (gs + 1) target (Nat.lt_of_not_le hc)]
        omega

lemma runEpochs_eq :
    ∀ (e gs len target : ℕ), gs < target →
      runEpochs e gs len target = min target (gs + len * e) := by
  intro e
  induction e with
  | zero =>
      intro gs len target h
      simp only [runEpochs, Nat.mul_zero, Nat.add_zero]
      omega
  | succ e ih =>
      intro gs len target h
      simp only [runEpochs]
      rw [runEpoch_eq len gs target h]
      by_cases hc : target ≤ min target (gs + len)
      · rw [if_pos hc, Nat.mul_succ]
        generalize len * e = m
        omega
      · rw [if_neg hc]
        have h3 : min target (gs + len) = gs + len := by omega
        rw [h3, ih (gs + len) len target (by omega), Nat.mul_succ]
        generalize len * e = m
        omega

lemma runEpochs_zero_batches : ∀ (e gs target : ℕ), runEpochs e gs 0 target = gs := by
  intro e
  induction e with
  | zero => intro gs target; rfl
  | succ e ih =>
      intro gs target
      simp only [runEpochs, runEpoch]
      by_cases hc : target ≤ gs
      · rw [if_pos hc]
      · rw [if_neg hc]
        exact ih gs target

lemma le_mul_ceilDiv (a b : ℕ) (hb : 0 < b) : a ≤ b * ceilDiv a b := by
  unfold ceilDiv
  have h1 : (a + b - 1) / b < (a + b - 1) / b + 1 := Nat.lt_succ_self _
  have h2 : a + b - 1 < ((a + b - 1) / b + 1) * b := (Nat.div_lt_iff_lt_mul hb).mp h1
  have h3 : ((a + b - 1) / b + 1) * b = (a + b - 1) / b * b + b := by ring
  rw [h3] at h2
  rw [Nat.mul_comm]
  generalize (a + b - 1) / b * b = m at h2 ⊢
  omega

/-- C5: when `max_steps > 0` the total step target is `max_steps`
(overriding the epoch count, whose value is recomputed as
`ceil(max_steps / batches-per-epoch)`), otherwise it is batches-per-epoch
times `num_train_epochs`; and the loop stops at whichever comes first of
reaching the target and exhausting the epochs, so the executed step count
is `min(target, batches-per-epoch * epochs-run)` — which equals
`max_steps` in the first case and `batches * epochs` in the second. -/
theorem training_step_count (maxSteps : ℤ) (numBatches epochs : ℕ)
    (hlen : 0 < maxSteps → 0 < numBatches) :
    trainSim maxSteps numBatches epochs =
        min (numTrainingSteps maxSteps numBatches epochs)
          (numBatches * numTrainEpochs maxSteps numBatches epochs) ∧
      (0 < maxSteps →
          numTrainingSteps maxSteps numBatches epochs = maxSteps.toNat ∧
            trainSim maxSteps numBatches epochs = maxSteps.toNat) ∧
        (¬ 0 < maxSteps →
            numTrainingSteps maxSteps numBatches epochs = numBatches * epochs ∧
              trainSim maxSteps numBatches epochs = numBatches * epochs) := by
  by_cases hms : 0 < maxSteps
  · have hb := hlen hms
    have htgt : numTrainingSteps maxSteps numBatches epochs = maxSteps.toNat := by
      unfold numTrainingSteps
      rw [if_pos hms]
    have heps : numTrainEpochs maxSteps numBatches epochs =
        ceilDiv maxSteps.toNat numBatches := by
      unfold numTrainEpochs
      rw [if_pos hms]
    have htpos : 0 < maxSteps.toNat := by omega
    have hsim1 : trainSim maxSteps numBatches epochs =
        min maxSteps.toNat (numBatches * ceilDiv maxSteps.toNat numBatches) := by
      unfold trainSim
      rw [htgt, heps, runEpochs_eq _ 0 _ _ htpos, Nat.zero_add]
    have hle : maxSteps.toNat ≤ numBatches * ceilDiv maxSteps.toNat numBatches :=
      le_mul_ceilDiv _ _ hb
    refine ⟨?_, fun _ => ⟨htgt, ?_⟩, fun hcon => absurd hms hcon⟩
    · rw [htgt, heps, hsim1]
    · rw [hsim1, min_eq_left hle]
  · have htgt : numTrainingSteps maxSteps numBatches epochs = numBatches * epochs := by
      unfold numTrainingSteps
      rw [if_neg hms]
    have heps : numTrainEpochs maxSteps numBatches epochs = epochs := by
      unfold numTrainEpochs
      rw [if_neg hms]
    have hsim2 : trainSim maxSteps numBatches epochs = numBatches * epochs := by
      unfold trainSim
      rw [htgt, heps]
      by_cases h0 : 0 < numBatches * epochs
      · rw [runEpochs_eq epochs 0 numBatches (numBatches * epochs) h0]
        generalize numBatches * epochs = m
        omega
      · have hz : numBatches * epochs = 0 := by omega
        rw [hz]
        rcases Nat.mul_eq_zero.mp hz with hb0 | he0
        · rw [hb0]
          exact runEpochs_zero_batches epochs 0 0
        · rw [he0]
          rfl
    refine ⟨?_, fun hcon => absurd hcon hms, fun _ => ⟨htgt, hsim2⟩⟩
    rw [htgt, heps, hsim2, Nat.min_self]

/-- C5 witness: `max_steps = 7` with 3 batches per epoch and a configured
epoch count of 5 executes exactly the minimum of the step target and the
recomputed epoch capacity. -/
theorem training_step_count_witness :
    ((0 : ℤ) < 7 → 0 < 3) ∧
      trainSim 7 3 5 = min (numTrainingSteps 7 3 5) (3 * numTrainEpochs 7 3 5) :=
  ⟨fun _ => by decide, (training_step_count 7 3 5 (fun _ => by decide)).1⟩

/-- C6: `soft_cross_entropy` equals the negative mean over examples of
the expectation, under the teacher's softened distribution
`softmax(target)`, of the log of the student's softmax probabilities
(cross-entropy against the soft target), and the per-width total training
loss is the representation loss plus `lambda_logit` times this soft-label
loss. -/
theorem soft_cross_entropy_spec {n C : ℕ} (inp target : Fin n → Fin C → ℝ)
    (repLoss lambda_logit : ℝ) :
    soft_cross_entropy inp target = softLabelLossSpec inp target ∧
      totalLoss repLoss lambda_logit (soft_cross_entropy inp target) =
        repLoss + lambda_logit * softLabelLossSpec inp target := by
  have key : soft_cross_entropy inp target = softLabelLossSpec inp target := by
    unfold soft_cross_entropy softLabelLossSpec
    have hsum : (∑ i, ∑ c, log_softmax (inp i) c * softmax (target i) c) =
        ∑ i, ∑ c, softmax (target i) c * Real.log (softmax (inp i) c) := by
      refine Finset.sum_congr rfl (fun i _ => ?_)
      refine Finset.sum_congr rfl (fun c _ => ?_)
      rw [mul_comm]
      congr 1
      unfold log_softmax softmax
      have hS : (∑ j, Real.exp (inp i j)) ≠ 0 :=
        ne_of_gt (Finset.sum_pos (fun j _ => Real.exp_pos _) ⟨c, Finset.mem_univ c⟩)
      rw [Real.log_div (Real.exp_ne_zero _) hS, Real.log_exp]
    rw [hsum]
  exact ⟨key, by unfold totalLoss; rw [key]⟩

lemma evalLoop_map_some {M B : Type} (upd : M → B → M) :
    ∀ (bs : List B) (m : M), evalLoop upd m (bs.map some) = some (bs.foldl upd m) := by
  intro bs
  induction bs with
  | nil => intro m; rfl
  | cons b rest ih => intro m; exact ih (upd m b)

lemma evalLoop_error {M B : Type} (upd : M → B → M) :
    ∀ (bs : List B) (m : M) (rest : List (Option B)),
      evalLoop upd m (bs.map some ++ none :: rest) = none := by
  intro bs
  induction bs with
  | nil => intro m rest; rfl
  | cons b bs ih => intro m rest; exact ih (upd m b) rest

/-- C7 counterexample: a model that is in inference mode before
`evaluate` and whose iteration completes normally is left in training
mode afterwards — `model.train()` at line 192 runs unconditionally, so
the prior mode is not restored. -/
theorem evaluate_mode_counterexample :
    (evaluate NetMode.eval [some (0 : ℚ)] (0 : ℚ) (fun m _ => m) (fun m => m)).1 ≠
      NetMode.eval := by
  decide

/-- C7 amended: the mode in which `evaluate` leaves the model does not
depend on the prior mode at all: every normally-completing call ends in
training mode, and every call whose iteration raises ends in inference
mode (the `model.train()` of line 192 is skipped and nothing restores the
mode on the error path). -/
theorem evaluate_mode_amended {M B : Type} (mode0 mode1 : NetMode) (reset : M)
    (upd : M → B → M) (accum : M → ℚ) (obs : List (Option B)) (bs : List B)
    (rest : List (Option B)) :
    (evaluate mode0 obs reset upd accum).1 = (evaluate mode1 obs reset upd accum).1 ∧
      (evaluate mode0 (bs.map some) reset upd accum).1 = NetMode.train ∧
        (evaluate mode0 (bs.map some ++ none :: rest) reset upd accum).1 = NetMode.eval := by
  refine ⟨rfl, ?_, ?_⟩
  · unfold evaluate
    rw [evalLoop_map_some]
  · unfold evaluate
    rw [evalLoop_error]

/-- C8 counterexample: on an empty calibration loader the importance
estimation returns all-zero scores wrapped in a success value — no
configuration error is signalled. -/
theorem importance_empty_loader_counterexample :
    compute_neuron_head_importance 2 ([] : List ℚ) (fun _ _ => 0) =
        Except.ok (fun _ => (0 : ℚ)) ∧
      compute_neuron_head_importance 2 ([] : List ℚ) (fun _ _ => 0) ≠ Except.error () := by
  constructor
  · unfold compute_neuron_head_importance
    congr 1
    funext h
    simp
  · unfold compute_neuron_head_importance
    intro hcon
    exact Except.noConfusion hcon

/-- C8 amended: for every contribution function, an empty calibration
loader makes the importance estimator return all-zero importance scores
(the zero accumulator averaged over zero examples) without raising, and
training proceeds with those scores. -/
theorem importance_empty_loader_amended {B : Type} (H : ℕ) (contrib : B → Fin H → ℚ) :
    compute_neuron_head_importance H ([] : List B) contrib =
      Except.ok (fun _ => (0 : ℚ)) := by
  unfold compute_neuron_head_importance
  congr 1
  funext h
  simp

/-- C9 counterexample: a second invocation of `reorder_neuron_head` on
the already-reordered demo model is not rejected — it changes the weights
again (the demo layer's position-0 query weight moves back), so the
result differs from the once-reordered model. -/
theorem reorder_twice_counterexample :
    qWeightAt (reorder_neuron_head (reorder_neuron_head demoModel demoHeadImp demoNeuronImp)
          demoHeadImp demoNeuronImp) ≠
      qWeightAt (reorder_neuron_head demoModel demoHeadImp demoNeuronImp) := by
  decide

/-- C9 amended: no one-shot guard exists — `reorder_neuron_head`
unconditionally applies its argsort-derived permutation on every call:
the first call on the demo model swaps the two heads (query weight at
position 0 goes from 1 to 2) and a second call with the same scores
permutes the already-reordered weights again (back to 1) instead of
being rejected. -/
theorem reorder_no_guard_reapplies :
    qWeightAt demoModel = 1 ∧
      qWeightAt (reorder_neuron_head demoModel demoHeadImp demoNeuronImp) = 2 ∧
        qWeightAt (reorder_neuron_head
            (reorder_neuron_head demoModel demoHeadImp demoNeuronImp)
            demoHeadImp demoNeuronImp) = 1 := by
  decide

end Prune
